import Mathlib

/-!
Verification of the translation & image-rewrite pipeline of
`telegram-signals-parisng` against its natural-language specification.

The Python sources are embedded shallowly:

* `src/state/flow_tracker.py`  → namespace `FlowTracker`
* `src/vision/fallback.py`     → namespace `Vision`
* `src/ocr/seamless_replacer.py` → namespace `Replacer`
* `src/translators/google.py`, `src/translators/fallback.py` → namespace `Translators`
* `src/ocr/image_editor.py`    → namespace `ImageEditor`
* `src/handlers/update_handler.py` → namespace `UpdateHandler`

Machine ints are modelled as `Int`/`Nat`, Python floats used only in
comparisons as `ℚ`, Python `None` as `Option.none`, raised exceptions as
`Except.error`, and Python dicts as insertion-ordered association lists.
-/

namespace PyDict

/-- Python dict assignment `m[k] = v`: if the key is present its value is
updated in place (keeping its position), otherwise the pair is appended. -/
def set {α β : Type} [DecidableEq α] : List (α × β) → α → β → List (α × β)
  | [], k, v => [(k, v)]
  | e :: rest, k, v => if e.1 = k then (k, v) :: rest else e :: set rest k v

/-- Python dict built from a list of pairs (later keys overwrite earlier ones),
as in the comprehension in `edit_image_text_sync`. -/
def ofList {α β : Type} [DecidableEq α] (l : List (α × β)) : List (α × β) :=
  l.foldl (fun m p => set m p.1 p.2) []

theorem lookup_set_self {α β : Type} [DecidableEq α] (m : List (α × β)) (k : α) (v : β) :
    ((set m k v).find? (fun e => e.1 = k)) = some (k, v) := by
  induction m with
  | nil => simp [set]
  | cons e rest ih =>
    by_cases h : e.1 = k
    · simp [set, h]
    · simp [set, h, ih]

theorem set_length {α β : Type} [DecidableEq α] (m : List (α × β)) (k : α) (v : β) :
    (set m k v).length ≤ m.length + 1 := by
  induction m with
  | nil => simp [set]
  | cons e rest ih =>
    by_cases h : e.1 = k
    · simp [set, h]
    · simp only [set, if_neg h, List.length_cons]
      omega

theorem mem_set {α β : Type} [DecidableEq α] (m : List (α × β)) (k : α) (v : β)
    (p : α × β) (hp : p ∈ set m k v) : p ∈ m ∨ p = (k, v) := by
  induction m with
  | nil => simp [set] at hp; simp [hp]
  | cons e rest ih =>
    by_cases h : e.1 = k
    · simp [set, h] at hp
      rcases hp with h1 | h2
      · right; exact h1
      · left; exact List.mem_cons_of_mem _ h2
    · simp only [set, if_neg h, List.mem_cons] at hp
      rcases hp with h1 | h2
      · left; simp [h1]
      · rcases ih h2 with h3 | h4
        · left; exact List.mem_cons_of_mem _ h3
        · right; exact h4

theorem mem_foldl_set {α β : Type} [DecidableEq α] :
    ∀ (l acc : List (α × β)) (p : α × β),
      p ∈ l.foldl (fun m q => set m q.1 q.2) acc → p ∈ acc ∨ p ∈ l := by
  intro l
  induction l with
  | nil => intro acc p hacc; left; simpa using hacc
  | cons q rest ih =>
    intro acc p hacc
    simp only [List.foldl_cons] at hacc
    rcases ih (set acc q.1 q.2) p hacc with h1 | h2
    · rcases mem_set acc q.1 q.2 p h1 with h3 | h4
      · left; exact h3
      · right; rw [h4]; exact List.mem_cons_self _ _
    · right; exact List.mem_cons_of_mem _ h2

theorem mem_ofList {α β : Type} [DecidableEq α] (l : List (α × β))
    (p : α × β) (hp : p ∈ ofList l) : p ∈ l := by
  rcases mem_foldl_set l [] p hp with h1 | h2
  · simp at h1
  · exact h2

end PyDict

namespace Py

/-- Python `str.lower()` restricted to its ASCII action (`Char.toLower`
mapped over the characters); the texts compared by this repository matcher
are ASCII tickers and keywords. -/
def lower (s : String) : String := ⟨s.data.map Char.toLower⟩

/-- Python `str.strip()`: drop leading and trailing whitespace. -/
def strip (s : String) : String :=
  ⟨((s.data.dropWhile Char.isWhitespace).reverse.dropWhile Char.isWhitespace).reverse⟩

end Py

namespace FlowTracker

/-- Timestamps (`time.time()` values) are modelled as rationals. -/
abbrev Time := ℚ

/-- `FlowInfo` dataclass of `src/state/flow_tracker.py`. -/
structure FlowInfo where
  user_id : Int
  timestamp : Time
deriving DecidableEq, Repr

/-- `FLOW_TTL` with its default of 259200 seconds (72 hours). -/
def FLOW_TTL : Time := 259200

/-- `MAX_FLOWS` hard cap. -/
def MAX_FLOWS : Nat := 10000

/-- `CLEANUP_INTERVAL`: sweep expired entries every N `start_flow` calls. -/
def CLEANUP_INTERVAL : Nat := 100

/-- The module-level mutable state: `_active_flows` (an insertion-ordered
dict keyed by signal id) and `_operation_counter`. -/
structure FlowState where
  flows : List (Int × FlowInfo)
  opCounter : Nat
deriving DecidableEq, Repr

/-- The empty initial state. -/
def initState : FlowState := ⟨[], 0⟩

/-- `cleanup_expired`: collect the ids of all expired entries, then delete
each of those keys from the dict. -/
def cleanup_expired (now : Time) (st : FlowState) : FlowState :=
  let expired := (st.flows.filter (fun e => decide (now - e.2.timestamp > FLOW_TTL))).map (·.1)
  { st with flows := st.flows.filter (fun e => decide (e.1 ∉ expired)) }

/-- `_force_cleanup`: when over the cap, stably sort by timestamp ascending
and delete the keys of the oldest `max 1 (len // 10)` entries. -/
def force_cleanup (st : FlowState) : FlowState :=
  if st.flows.length ≤ MAX_FLOWS then st
  else
    let sortedFlows := st.flows.mergeSort (fun a b => decide (a.2.timestamp ≤ b.2.timestamp))
    let toRemove := max 1 (st.flows.length / 10)
    let removedKeys := (sortedFlows.take toRemove).map (·.1)
    { st with flows := st.flows.filter (fun e => decide (e.1 ∉ removedKeys)) }

/-- `start_flow`: insert/refresh the entry, bump the operation counter,
run the periodic expiry sweep every `CLEANUP_INTERVAL` calls, then force
cleanup when the map exceeds `MAX_FLOWS`. -/
def start_flow (now : Time) (signal_id user_id : Int) (st : FlowState) : FlowState :=
  let st1 : FlowState :=
    { flows := PyDict.set st.flows signal_id ⟨user_id, now⟩
      opCounter := st.opCounter + 1 }
  let st2 : FlowState :=
    if st1.opCounter ≥ CLEANUP_INTERVAL then cleanup_expired now { st1 with opCounter := 0 }
    else st1
  if st2.flows.length > MAX_FLOWS then force_cleanup st2 else st2

/-- `get_flow_owner`: return the unexpired owner; an expired entry is
deleted and `None` returned.  The possibly-mutated state is returned too. -/
def get_flow_owner (now : Time) (signal_id : Int) (st : FlowState) :
    Option Int × FlowState :=
  match st.flows.find? (fun e => e.1 = signal_id) with
  | none => (none, st)
  | some e =>
    if now - e.2.timestamp > FLOW_TTL then
      (none, { st with flows := st.flows.filter (fun x => decide (x.1 ≠ signal_id)) })
    else
      (some e.2.user_id, st)

/-- `is_allowed`: allowed iff there is no unexpired owner or the caller is
the owner. -/
def is_allowed (now : Time) (signal_id user_id : Int) (st : FlowState) :
    Bool × FlowState :=
  match get_flow_owner now signal_id st with
  | (none, st2) => (true, st2)
  | (some owner, st2) => (owner == user_id, st2)

/-- `end_flow`: delete the entry if present. -/
def end_flow (signal_id : Int) (st : FlowState) : FlowState :=
  if (st.flows.find? (fun e => e.1 = signal_id)).isSome then
    { st with flows := st.flows.filter (fun x => decide (x.1 ≠ signal_id)) }
  else st

theorem find?_filter_of_find? {α : Type} (l : List α) (p q : α → Bool) (e : α)
    (h : l.find? p = some e) (hq : q e = true) : (l.filter q).find? p = some e := by
  induction l with
  | nil => simp at h
  | cons a rest ih =>
    by_cases hpa : p a = true
    · rw [List.find?_cons_of_pos _ hpa] at h
      injection h with h
      subst h
      rw [List.filter_cons_of_pos hq, List.find?_cons_of_pos _ hpa]
    · rw [List.find?_cons_of_neg _ (by simpa using hpa)] at h
      by_cases hqa : q a = true
      · rw [List.filter_cons_of_pos hqa, List.find?_cons_of_neg _ (by simpa using hpa)]
        exact ih h
      · rw [List.filter_cons_of_neg (by simpa using hqa)]
        exact ih h

theorem set_key_unique (m : List (Int × FlowInfo)) (k : Int) (v : FlowInfo)
    (hkeys : (m.map Prod.fst).Nodup) :
    ∀ e ∈ PyDict.set m k v, e.1 = k → e = (k, v) := by
  induction m with
  | nil => intro e he; simp [PyDict.set] at he; simp [he]
  | cons a rest ih =>
    simp only [List.map_cons, List.nodup_cons] at hkeys
    intro e he hek
    by_cases hak : a.1 = k
    · simp only [PyDict.set, if_pos hak, List.mem_cons] at he
      rcases he with h1 | h2
      · exact h1
      · exfalso
        apply hkeys.1
        have : e.1 ∈ rest.map Prod.fst := List.mem_map_of_mem _ h2
        rw [hek, ← hak] at this
        exact this
    · simp only [PyDict.set, if_neg hak, List.mem_cons] at he
      rcases he with h1 | h2
      · exfalso; rw [h1] at hek; exact hak hek
      · exact ih hkeys.2 e h2 hek

theorem force_cleanup_length (st : FlowState)
    (h : st.flows.length ≤ MAX_FLOWS + 1) :
    (force_cleanup st).flows.length ≤ MAX_FLOWS := by
  unfold force_cleanup
  by_cases hover : st.flows.length ≤ MAX_FLOWS
  · rw [if_pos hover]; exact hover
  · rw [if_neg hover]
    simp only
    have hne : st.flows ≠ [] := by
      intro hnil
      rw [hnil] at hover
      simp [MAX_FLOWS] at hover
    have hperm : (st.flows.mergeSort
        (fun a b => decide (a.2.timestamp ≤ b.2.timestamp))).Perm st.flows :=
      List.mergeSort_perm _ _
    have hsne : st.flows.mergeSort
        (fun a b => decide (a.2.timestamp ≤ b.2.timestamp)) ≠ [] := by
      intro hnil
      rw [hnil] at hperm
      exact hne hperm.symm.eq_nil
    obtain ⟨e0, rest, hcons⟩ := List.exists_cons_of_ne_nil hsne
    have he0mem : e0 ∈ st.flows := hperm.mem_iff.mp (by rw [hcons]; exact List.mem_cons_self _ _)
    have he0key : e0.1 ∈ ((st.flows.mergeSort
        (fun a b => decide (a.2.timestamp ≤ b.2.timestamp))).take
          (max 1 (st.flows.length / 10))).map (·.1) := by
      apply List.mem_map_of_mem
      rw [hcons]
      have h1 : max 1 (st.flows.length / 10) ≥ 1 := le_max_left _ _
      match hmr : max 1 (st.flows.length / 10), h1 with
      | n + 1, _ => exact List.mem_cons_self _ _
    have hfail : ∃ x ∈ st.flows,
        ¬ (fun e => decide (e.1 ∉ ((st.flows.mergeSort
            (fun a b => decide (a.2.timestamp ≤ b.2.timestamp))).take
              (max 1 (st.flows.length / 10))).map (·.1))) x = true := by
      refine ⟨e0, he0mem, ?_⟩
      simpa using he0key
    have hlt := List.length_filter_lt_length_iff_exists.mpr hfail
    omega

theorem length_start_flow (now : Time) (s u : Int) (st : FlowState)
    (hlen : st.flows.length ≤ MAX_FLOWS) :
    (start_flow now s u st).flows.length ≤ MAX_FLOWS := by
  have h1 : (PyDict.set st.flows s ⟨u, now⟩).length ≤ MAX_FLOWS + 1 := by
    calc (PyDict.set st.flows s ⟨u, now⟩).length
        ≤ st.flows.length + 1 := PyDict.set_length _ _ _
    _ ≤ MAX_FLOWS + 1 := by omega
  unfold start_flow
  simp only
  generalize hst2 : (if st.opCounter + 1 ≥ CLEANUP_INTERVAL then
      cleanup_expired now { flows := PyDict.set st.flows s ⟨u, now⟩, opCounter := 0 }
    else { flows := PyDict.set st.flows s ⟨u, now⟩, opCounter := st.opCounter + 1 }) = st2
  have h2 : st2.flows.length ≤ MAX_FLOWS + 1 := by
    rw [← hst2]
    split
    · calc (cleanup_expired now
            { flows := PyDict.set st.flows s ⟨u, now⟩, opCounter := 0 }).flows.length
          ≤ (PyDict.set st.flows s ⟨u, now⟩).length := List.length_filter_le _ _
      _ ≤ MAX_FLOWS + 1 := h1
    · exact h1
  by_cases hover : st2.flows.length > MAX_FLOWS
  · rw [if_pos hover]
    exact force_cleanup_length st2 h2
  · rw [if_neg hover]
    omega

/-- A sequence of `start_flow` calls, each given as (now, signal_id, user_id). -/
def runStartFlows (calls : List (Time × Int × Int)) (st : FlowState) : FlowState :=
  calls.foldl (fun acc c => start_flow c.1 c.2.1 c.2.2 acc) st

theorem start_flow_find (now0 : Time) (s u : Int) (st : FlowState)
    (hkeys : (st.flows.map Prod.fst).Nodup)
    (hlen : st.flows.length < MAX_FLOWS) :
    (start_flow now0 s u st).flows.find? (fun e => e.1 = s)
      = some (s, ⟨u, now0⟩) := by
  have hbase : (PyDict.set st.flows s ⟨u, now0⟩).find? (fun e => decide (e.1 = s))
      = some (s, ⟨u, now0⟩) := PyDict.lookup_set_self _ _ _
  have hclean : (cleanup_expired now0
      { flows := PyDict.set st.flows s ⟨u, now0⟩, opCounter := 0 }).flows.find?
        (fun e => decide (e.1 = s)) = some (s, ⟨u, now0⟩) := by
    unfold cleanup_expired
    simp only
    apply find?_filter_of_find? _ _ _ _ hbase
    simp only [decide_eq_true_eq]
    intro hmem
    rw [List.mem_map] at hmem
    obtain ⟨e, he, hek⟩ := hmem
    rw [List.mem_filter] at he
    have heq := set_key_unique st.flows s ⟨u, now0⟩ hkeys e he.1 hek
    have he2 := he.2
    rw [heq] at he2
    norm_num [FLOW_TTL] at he2
  have hlen1 : (PyDict.set st.flows s ⟨u, now0⟩).length ≤ MAX_FLOWS := by
    calc (PyDict.set st.flows s ⟨u, now0⟩).length
        ≤ st.flows.length + 1 := PyDict.set_length _ _ _
    _ ≤ MAX_FLOWS := by omega
  unfold start_flow
  simp only
  have h2find : (if st.opCounter + 1 ≥ CLEANUP_INTERVAL then
        cleanup_expired now0 { flows := PyDict.set st.flows s ⟨u, now0⟩, opCounter := 0 }
      else { flows := PyDict.set st.flows s ⟨u, now0⟩,
             opCounter := st.opCounter + 1 }).flows.find? (fun e => decide (e.1 = s))
      = some (s, ⟨u, now0⟩) := by
    split
    · exact hclean
    · exact hbase
  have h2len : (if st.opCounter + 1 ≥ CLEANUP_INTERVAL then
        cleanup_expired now0 { flows := PyDict.set st.flows s ⟨u, now0⟩, opCounter := 0 }
      else { flows := PyDict.set st.flows s ⟨u, now0⟩,
             opCounter := st.opCounter + 1 }).flows.length ≤ MAX_FLOWS := by
    split
    · calc (cleanup_expired now0
            { flows := PyDict.set st.flows s ⟨u, now0⟩, opCounter := 0 }).flows.length
          ≤ (PyDict.set st.flows s ⟨u, now0⟩).length := List.length_filter_le _ _
      _ ≤ MAX_FLOWS := hlen1
    · exact hlen1
  rw [if_neg (by omega)]
  exact h2find

/-- C7: after `start_flow(s, u)`, `get_flow_owner(s)` returns `u` while the
entry's age is at most the TTL; once the age exceeds the TTL the entry is
evicted and `None` returned; `is_allowed(s, v)` is true exactly when there
is no unexpired owner or `v` is the owner (so a different user is denied
before expiry and allowed after).  The hypotheses say the starting state is
a well-formed dict that is strictly below the hard cap, so that the
freshly started flow is not immediately evicted by the cap cleanup. -/
theorem flow_tracker_ownership_semantics
    (st : FlowState) (now0 now : Time) (s u v : Int)
    (hkeys : (st.flows.map Prod.fst).Nodup)
    (hlen : st.flows.length < MAX_FLOWS) :
    ((now - now0 ≤ FLOW_TTL →
        (get_flow_owner now s (start_flow now0 s u st)).1 = some u)
      ∧ (now - now0 > FLOW_TTL →
        (get_flow_owner now s (start_flow now0 s u st)).1 = none
        ∧ (get_flow_owner now s (start_flow now0 s u st)).2.flows.find?
            (fun e => e.1 = s) = none)
      ∧ (now - now0 ≤ FLOW_TTL →
        ((is_allowed now s v (start_flow now0 s u st)).1 = true ↔ v = u))
      ∧ (now - now0 > FLOW_TTL →
        (is_allowed now s v (start_flow now0 s u st)).1 = true))
    ∧ (∀ (st2 : FlowState) (s2 u2 : Int) (now2 : Time),
        (is_allowed now2 s2 u2 st2).1 = true ↔
          ((get_flow_owner now2 s2 st2).1 = none
            ∨ (get_flow_owner now2 s2 st2).1 = some u2)) := by
  have hfind := start_flow_find now0 s u st hkeys hlen
  constructor
  · refine ⟨?_, ?_, ?_, ?_⟩
    · intro hle
      unfold get_flow_owner
      rw [hfind]
      simp only
      rw [if_neg (by exact not_lt.mpr hle)]
    · intro hgt
      unfold get_flow_owner
      rw [hfind]
      simp only
      rw [if_pos hgt]
      refine ⟨rfl, ?_⟩
      simp only
      rw [List.find?_eq_none]
      intro x hx
      rw [List.mem_filter] at hx
      simpa using hx.2
    · intro hle
      unfold is_allowed get_flow_owner
      rw [hfind]
      simp only
      rw [if_neg (by exact not_lt.mpr hle)]
      simp only [beq_iff_eq]
      exact eq_comm
    · intro hgt
      unfold is_allowed get_flow_owner
      rw [hfind]
      simp only
      rw [if_pos hgt]
  · intro st2 s2 u2 now2
    unfold is_allowed
    cases hgo : get_flow_owner now2 s2 st2 with
    | mk o st3 =>
      cases o with
      | none => simp
      | some owner =>
        simp only [beq_iff_eq]
        constructor
        · intro h; right; rw [h]
        · rintro (h | h)
          · exact absurd h (Option.some_ne_none _)
          · exact Option.some.inj h

/-- Witness for C7 at concrete inputs: user 111 starts a flow on signal 1
at time 0; at time 259200 (exactly the TTL) the owner is still 111, a
different user 222 is denied while 111 is allowed; at time 259201 the
entry has expired, the owner is `None` and user 222 is allowed. -/
theorem flow_tracker_ownership_semantics_witness :
    (get_flow_owner 259200 1 (start_flow 0 1 111 initState)).1 = some 111
    ∧ (get_flow_owner 259201 1 (start_flow 0 1 111 initState)).1 = none
    ∧ ((is_allowed 259200 1 222 (start_flow 0 1 111 initState)).1 = true ↔ (222 : Int) = 111)
    ∧ ((is_allowed 259200 1 111 (start_flow 0 1 111 initState)).1 = true ↔ (111 : Int) = 111)
    ∧ (is_allowed 259201 1 222 (start_flow 0 1 111 initState)).1 = true := by
  have hkeys : (initState.flows.map Prod.fst).Nodup := by simp [initState]
  have hlen : initState.flows.length < MAX_FLOWS := by norm_num [initState, MAX_FLOWS]
  have h1 := flow_tracker_ownership_semantics initState 0 259200 1 111 222 hkeys hlen
  have h2 := flow_tracker_ownership_semantics initState 0 259201 1 111 222 hkeys hlen
  have h3 := flow_tracker_ownership_semantics initState 0 259200 1 111 111 hkeys hlen
  refine ⟨h1.1.1 (by norm_num [FLOW_TTL]), (h2.1.2.1 (by norm_num [FLOW_TTL])).1,
    h1.1.2.2.1 (by norm_num [FLOW_TTL]), h3.1.2.2.1 (by norm_num [FLOW_TTL]),
    h2.1.2.2.2 (by norm_num [FLOW_TTL])⟩

/-- C8: `start_flow` keeps the flow map at or below the hard cap of
`MAX_FLOWS` entries whenever the starting state was at or below the cap,
both for one call and for any sequence of calls; and whenever a state
exceeds the cap, `_force_cleanup` deletes the keys of the oldest
`max 1 (length / 10)` entries by timestamp. -/
theorem flow_tracker_cap_invariant :
    (∀ (now : Time) (s u : Int) (st : FlowState),
        st.flows.length ≤ MAX_FLOWS →
        (start_flow now s u st).flows.length ≤ MAX_FLOWS)
    ∧ (∀ (calls : List (Time × Int × Int)) (st : FlowState),
        st.flows.length ≤ MAX_FLOWS →
        (runStartFlows calls st).flows.length ≤ MAX_FLOWS)
    ∧ (∀ st : FlowState, st.flows.length > MAX_FLOWS →
        (force_cleanup st).flows = st.flows.filter (fun e =>
          decide (e.1 ∉ ((st.flows.mergeSort
            (fun a b => decide (a.2.timestamp ≤ b.2.timestamp))).take
              (max 1 (st.flows.length / 10))).map (·.1)))) := by
  refine ⟨fun now s u st h => length_start_flow now s u st h, ?_, ?_⟩
  · intro calls
    induction calls with
    | nil => intro st h; simpa [runStartFlows] using h
    | cons c rest ih =>
      intro st h
      have hstep := length_start_flow c.1 c.2.1 c.2.2 st h
      have : runStartFlows (c :: rest) st = runStartFlows rest (start_flow c.1 c.2.1 c.2.2 st) := rfl
      rw [this]
      exact ih _ hstep
  · intro st h
    unfold force_cleanup
    rw [if_neg (by omega)]

/-- Witness for C8 at a concrete input: one call on the empty state. -/
theorem flow_tracker_cap_invariant_witness :
    (start_flow 0 1 111 initState).flows.length ≤ MAX_FLOWS
    ∧ (runStartFlows [(0, 1, 111), (5, 2, 222)] initState).flows.length ≤ MAX_FLOWS := by
  have h0 : initState.flows.length ≤ MAX_FLOWS := by norm_num [initState, MAX_FLOWS]
  exact ⟨flow_tracker_cap_invariant.1 0 1 111 initState h0,
    flow_tracker_cap_invariant.2.1 [(0, 1, 111), (5, 2, 222)] initState h0⟩

end FlowTracker

namespace Replacer

/-- `bbox_rect` rectangle (x1, y1, x2, y2). -/
structure Rect where
  x1 : Int
  y1 : Int
  x2 : Int
  y2 : Int
deriving DecidableEq, Repr

/-- A detected text box as built by `extract_bounding_boxes`
(`{'text', 'bbox', 'confidence', 'bbox_rect'}`). -/
structure Box where
  text : String
  bbox : List (Int × Int)
  confidence : ℚ
  bbox_rect : Rect
deriving DecidableEq, Repr

/-- Raw PaddleOCR worker payload (`{'texts', 'polys', 'scores'}`). -/
structure OcrData where
  texts : List String
  polys : List (List (Int × Int))
  scores : List ℚ
deriving DecidableEq, Repr

/-- `_bbox_to_rect`: min/max of the polygon coordinates; `min()`/`max()` of
an empty sequence raises, modelled as an `Except.error`. -/
def bboxToRect (poly : List (Int × Int)) : Except String Rect :=
  match poly with
  | [] => .error "min() arg is an empty sequence"
  | p :: ps =>
    .ok ⟨(ps.map Prod.fst).foldl min p.1, (ps.map Prod.snd).foldl min p.2,
         (ps.map Prod.fst).foldl max p.1, (ps.map Prod.snd).foldl max p.2⟩

/-- Inner loop of `extract_bounding_boxes` over `zip(texts, polys, scores)`:
keep non-empty stripped texts, convert the polygon, default a falsy (0)
score to 1. -/
def buildBoxes : List (String × List (Int × Int) × ℚ) → Except String (List Box)
  | [] => .ok []
  | (t, poly, s) :: rest =>
    if t ≠ "" ∧ Py.strip t ≠ "" then
      match bboxToRect poly with
      | .error e => .error e
      | .ok r =>
        match buildBoxes rest with
        | .error e => .error e
        | .ok boxes => .ok (⟨Py.strip t, poly, if s = 0 then 1 else s, r⟩ :: boxes)
    else buildBoxes rest

/-- `extract_bounding_boxes`: `None` from the OCR worker gives an empty box
list; otherwise scores are padded with 1.0 when missing or too short, and
the detections are zipped and filtered. -/
def extract_bounding_boxes (ocr : Option OcrData) : Except String (List Box) :=
  match ocr with
  | none => .ok []
  | some d =>
    let scores := if d.scores = [] ∨ d.scores.length < d.texts.length
      then List.replicate d.texts.length (1 : ℚ) else d.scores
    buildBoxes (d.texts.zip (d.polys.zip scores))

/-- Score of one detected text against one translation key, as computed in
`match_translations` (Python `lower()` modelled by `String.toLower`,
substring containment by `List.isInfixOf` on the character lists, float
arithmetic by exact rationals). -/
def scoreOf (detected orig : String) : ℚ :=
  let dLower := Py.lower detected
  let oLower := Py.lower orig
  if detected = orig ∨ dLower = oLower then 100
  else if decide (oLower.data <:+: dLower.data) then
    80 + (orig.length : ℚ) / (detected.length : ℚ) * 10
  else if decide (dLower.data <:+: oLower.data) then
    60 + (detected.length : ℚ) / (orig.length : ℚ) * 10
  else if detected.length ≥ 3 ∧
      (decide (dLower.data <:+: oLower.data) ∨ decide (oLower.data <:+: dLower.data)) then 40
  else 0

/-- The inner best-candidate fold of `match_translations`: skip pairs whose
translation is already used, keep the strictly-highest score seen so far
(first pair wins ties), starting from `(None, 0)`. -/
def bestMatch (detected : String) (translations : List (String × String))
    (used : List String) : Option String × ℚ :=
  translations.foldl
    (fun best p =>
      if p.2 ∈ used then best
      else if scoreOf detected p.1 > best.2 then (some p.2, scoreOf detected p.1) else best)
    (none, 0)

/-- `boxArea`: bbox width × height, the sort key of `match_translations`. -/
def boxArea (b : Box) : Int :=
  (b.bbox_rect.x2 - b.bbox_rect.x1) * (b.bbox_rect.y2 - b.bbox_rect.y1)

/-- `sorted(..., key=area, reverse=True)`: stable descending sort. -/
def sortBoxes (boxes : List Box) : List Box :=
  boxes.mergeSort (fun a b => decide (boxArea b ≤ boxArea a))

/-- The accept loop of `match_translations`: accept the best candidate when
it is truthy (non-`None`, non-empty) and scores at least 40, then mark its
translation as used. -/
def matchGo (translations : List (String × String)) :
    List Box → List String → List (Box × String)
  | [], _ => []
  | box :: rest, used =>
    let detected := Py.strip box.text
    match bestMatch detected translations used with
    | (some t, bs) =>
      if t ≠ "" ∧ bs ≥ 40 then (box, t) :: matchGo translations rest (t :: used)
      else matchGo translations rest used
    | (none, _) => matchGo translations rest used

/-- `match_translations`: sort boxes largest-area-first, then run the
accept loop with an initially empty used set. -/
def match_translations (detected_boxes : List Box)
    (translations : List (String × String)) : List (Box × String) :=
  matchGo translations (sortBoxes detected_boxes) []

/-- The skip test of the per-match loop in `process_image_sync`:
`not (x2 < px1 or x1 > px2 or y2 < py1 or y1 > py2)`. -/
def rectOverlapB (r p : Rect) : Bool :=
  !(decide (r.x2 < p.x1) || decide (r.x1 > p.x2) || decide (r.y2 < p.y1) || decide (r.y1 > p.y2))

/-- Shared area of two rectangles (zero when they merely touch). -/
def sharedArea (r p : Rect) : Int :=
  max 0 (min r.x2 p.x2 - max r.x1 p.x1) * max 0 (min r.y2 p.y2 - max r.y1 p.y1)

/-- The per-match loop of `process_image_sync`, generic in the bitmap type
`Img`.  `apply original current (box, text)` stands for the sampling /
font-fitting / clearing / rendering steps, which read colors from the
original image, rewrite the working copy, and may raise (any exception
aborts the whole `try` block).  A candidate overlapping an
already-processed region is skipped; an accepted region is appended to
`processed_regions`. -/
def processMatched {Img : Type}
    (apply : Img → Img → Box × String → Except String Img) (original : Img) :
    List (Box × String) → Img → List Rect → Except String (Img × List Rect)
  | [], result, regions => .ok (result, regions)
  | (box, t) :: rest, result, regions =>
    if regions.any (fun p => rectOverlapB box.bbox_rect p) then
      processMatched apply original rest result regions
    else
      match apply original result (box, t) with
      | .error e => .error e
      | .ok result2 => processMatched apply original rest result2 (regions ++ [box.bbox_rect])

/-- `process_image_sync`: validate the path, load the image, detect boxes,
match translations, then run the per-match loop; every failure path of the
surrounding `try` returns `None`, the no-box and no-match paths return the
original image. -/
def process_image_sync {Img : Type} (validPath : Bool)
    (openImage : Except String Img) (ocr : Option OcrData)
    (apply : Img → Img → Box × String → Except String Img)
    (translations : List (String × String)) : Option Img :=
  if ¬ validPath then none
  else
    match openImage with
    | .error _ => none
    | .ok image =>
      match extract_bounding_boxes ocr with
      | .error _ => none
      | .ok boxes =>
        if boxes = [] then some image
        else
          let matched := match_translations boxes translations
          if matched = [] then some image
          else
            match processMatched apply image matched image [] with
            | .error _ => none
            | .ok (result, _) => some result

end Replacer

namespace Replacer

theorem bestMatch_foldl_inv (d : String) (used : List String)
    (P : Option String × ℚ → Prop)
    (hstep : ∀ (b : Option String × ℚ) (p : String × String), P b →
      P (if p.2 ∈ used then b
         else if scoreOf d p.1 > b.2 then (some p.2, scoreOf d p.1) else b)) :
    ∀ (trs : List (String × String)) (init : Option String × ℚ),
      P init →
      P (trs.foldl (fun best p =>
          if p.2 ∈ used then best
          else if scoreOf d p.1 > best.2 then (some p.2, scoreOf d p.1) else best) init) := by
  intro trs
  induction trs with
  | nil => intro init h; simpa using h
  | cons p rest ih =>
    intro init h
    simp only [List.foldl_cons]
    exact ih _ (hstep init p h)

theorem bestMatch_not_used (d : String) (trs : List (String × String))
    (used : List String) (t : String) (s : ℚ)
    (h : bestMatch d trs used = (some t, s)) : t ∉ used := by
  have hP := bestMatch_foldl_inv d used (fun b => ∀ u, b.1 = some u → u ∉ used)
    (by
      intro b p hb u hu
      by_cases hmem : p.2 ∈ used
      · rw [if_pos hmem] at hu; exact hb u hu
      · rw [if_neg hmem] at hu
        by_cases hsc : scoreOf d p.1 > b.2
        · rw [if_pos hsc] at hu
          simp only at hu
          injection hu with hu
          rw [← hu]; exact hmem
        · rw [if_neg hsc] at hu; exact hb u hu)
    trs (none, 0) (by intro u hu; simp at hu)
  exact hP t (by rw [bestMatch] at h; rw [h])

theorem bestMatch_exists (d : String) (used : List String) :
    ∀ (trs : List (String × String)) (init : Option String × ℚ) (t : String) (s : ℚ),
      trs.foldl (fun best p =>
          if p.2 ∈ used then best
          else if scoreOf d p.1 > best.2 then (some p.2, scoreOf d p.1) else best) init
        = (some t, s) →
      init = (some t, s) ∨ ∃ o, (o, t) ∈ trs ∧ scoreOf d o = s := by
  intro trs
  induction trs with
  | nil => intro init t s h; left; simpa using h
  | cons p rest ih =>
    intro init t s h
    simp only [List.foldl_cons] at h
    rcases ih _ t s h with h1 | h2
    · by_cases hmem : p.2 ∈ used
      · rw [if_pos hmem] at h1; left; exact h1
      · rw [if_neg hmem] at h1
        by_cases hsc : scoreOf d p.1 > init.2
        · rw [if_pos hsc] at h1
          injection h1 with ha hb
          right
          refine ⟨p.1, ?_, hb⟩
          injection ha with ha
          rw [← ha]
          exact List.mem_cons_self _ _
        · rw [if_neg hsc] at h1; left; exact h1
    · right
      obtain ⟨o, ho, hs⟩ := h2
      exact ⟨o, List.mem_cons_of_mem _ ho, hs⟩

theorem bestMatch_score_max (d : String) (used : List String) :
    ∀ (trs : List (String × String)) (init : Option String × ℚ),
      init.2 ≤ (trs.foldl (fun best p =>
          if p.2 ∈ used then best
          else if scoreOf d p.1 > best.2 then (some p.2, scoreOf d p.1) else best) init).2
      ∧ ∀ o t, (o, t) ∈ trs → t ∉ used →
          scoreOf d o ≤ (trs.foldl (fun best p =>
            if p.2 ∈ used then best
            else if scoreOf d p.1 > best.2 then (some p.2, scoreOf d p.1) else best) init).2 := by
  intro trs
  induction trs with
  | nil =>
    intro init
    refine ⟨le_refl _, ?_⟩
    intro o t ho
    simp at ho
  | cons p rest ih =>
    intro init
    have hstep : init.2 ≤ (if p.2 ∈ used then init
        else if scoreOf d p.1 > init.2 then (some p.2, scoreOf d p.1) else init).2 := by
      by_cases hmem : p.2 ∈ used
      · rw [if_pos hmem]
      · rw [if_neg hmem]
        by_cases hsc : scoreOf d p.1 > init.2
        · rw [if_pos hsc]; exact le_of_lt hsc
        · rw [if_neg hsc]
    constructor
    · simp only [List.foldl_cons]
      exact le_trans hstep (ih _).1
    · intro o t hmem hnu
      rcases List.mem_cons.mp hmem with h1 | h2
      · have hpo : p.1 = o := by rw [← h1]
        have hpt : p.2 = t := by rw [← h1]
        simp only [List.foldl_cons]
        have hmid : scoreOf d o ≤ (if p.2 ∈ used then init
            else if scoreOf d p.1 > init.2 then (some p.2, scoreOf d p.1) else init).2 := by
          rw [if_neg (by rw [hpt]; exact hnu)]
          by_cases hsc : scoreOf d p.1 > init.2
          · rw [if_pos hsc]; rw [← hpo]
          · rw [if_neg hsc]
            rw [← hpo]
            exact le_of_not_lt hsc
        exact le_trans hmid (ih _).1
      · simp only [List.foldl_cons]
        exact (ih _).2 o t h2 hnu

theorem matchGo_nodup (trs : List (String × String)) :
    ∀ (boxes : List Box) (used : List String),
      ((matchGo trs boxes used).map Prod.snd).Nodup
      ∧ ∀ t ∈ (matchGo trs boxes used).map Prod.snd, t ∉ used := by
  intro boxes
  induction boxes with
  | nil => intro used; simp [matchGo]
  | cons box rest ih =>
    intro used
    rw [matchGo]
    cases hbm : bestMatch (Py.strip box.text) trs used with
    | mk bm bs =>
      cases bm with
      | none =>
        simp only
        exact ih used
      | some t =>
        simp only
        by_cases hacc : t ≠ "" ∧ bs ≥ 40
        · rw [if_pos hacc]
          have ihrec := ih (t :: used)
          constructor
          · simp only [List.map_cons, List.nodup_cons]
            refine ⟨?_, ihrec.1⟩
            intro hmem
            exact (ihrec.2 t hmem) (List.mem_cons_self _ _)
          · intro u hu
            simp only [List.map_cons, List.mem_cons] at hu
            rcases hu with h1 | h2
            · rw [h1]
              exact bestMatch_not_used _ _ _ _ _ hbm
            · intro hmem
              exact (ihrec.2 u h2) (List.mem_cons_of_mem _ hmem)
        · rw [if_neg hacc]
          exact ih used

theorem matchGo_threshold (trs : List (String × String)) :
    ∀ (boxes : List Box) (used : List String) (b : Box) (t : String),
      (b, t) ∈ matchGo trs boxes used →
      ∃ o, (o, t) ∈ trs ∧ scoreOf (Py.strip b.text) o ≥ 40 := by
  intro boxes
  induction boxes with
  | nil => intro used b t h; simp [matchGo] at h
  | cons box rest ih =>
    intro used b t h
    rw [matchGo] at h
    cases hbm : bestMatch (Py.strip box.text) trs used with
    | mk bm bs =>
      rw [hbm] at h
      cases bm with
      | none =>
        simp only at h
        exact ih used b t h
      | some t2 =>
        simp only at h
        by_cases hacc : t2 ≠ "" ∧ bs ≥ 40
        · rw [if_pos hacc] at h
          rcases List.mem_cons.mp h with h1 | h2
          · have hb : box = b := ((Prod.mk.inj h1).1).symm
            have ht : t2 = t := ((Prod.mk.inj h1).2).symm
            rcases bestMatch_exists (Py.strip box.text) used trs (none, 0) t2 bs
                (by rw [bestMatch] at hbm; exact hbm) with hinit | hex
            · exact absurd (congrArg Prod.fst hinit) (by simp)
            · obtain ⟨o, ho, hs⟩ := hex
              refine ⟨o, by rw [← ht]; exact ho, ?_⟩
              rw [hb] at hs
              rw [hs]
              exact hacc.2
          · exact ih (t2 :: used) b t h2
        · rw [if_neg hacc] at h
          exact ih used b t h

end Replacer

namespace Replacer

/-- A detected headline box reading LONG (area 400). -/
def longBox : Box := ⟨"LONG", [(0, 0), (40, 0), (40, 10), (0, 10)], 1, ⟨0, 0, 40, 10⟩⟩

/-- A smaller detected box reading LON, a partial OCR read (area 300). -/
def lonBox : Box := ⟨"LON", [(0, 20), (30, 20), (30, 30), (0, 30)], 1, ⟨0, 20, 30, 30⟩⟩

theorem strip_LONG : Py.strip "LONG" = "LONG" := by decide

theorem sortBoxes_example : sortBoxes [longBox, lonBox] = [longBox, lonBox] :=
  List.mergeSort_of_sorted (by decide)

theorem scoreOf_LONG : scoreOf "LONG" "LONG" = 100 := by
  simp only [scoreOf]
  simp

theorem bm_long : bestMatch "LONG" [("LONG", "ЛОНГ")] [] = (some "ЛОНГ", 100) := by
  simp only [bestMatch, List.foldl_cons, List.foldl_nil]
  rw [if_neg (List.not_mem_nil _), scoreOf_LONG, if_pos (by norm_num)]

theorem bm_lon : bestMatch (Py.strip lonBox.text) [("LONG", "ЛОНГ")] ["ЛОНГ"] = (none, 0) := by
  simp only [bestMatch, List.foldl_cons, List.foldl_nil]
  rw [if_pos (List.mem_singleton.mpr rfl)]

theorem match_example :
    match_translations [longBox, lonBox] [("LONG", "ЛОНГ")] = [(longBox, "ЛОНГ")] := by
  rw [match_translations, sortBoxes_example]
  simp only [matchGo]
  have h1 : bestMatch (Py.strip longBox.text) [("LONG", "ЛОНГ")] [] = (some "ЛОНГ", 100) := by
    have : Py.strip longBox.text = "LONG" := by simp only [longBox]; exact strip_LONG
    rw [this]
    exact bm_long
  rw [h1]
  norm_num [bm_lon, show ¬("ЛОНГ" = "") from by decide]

/-- C6: each translation pair is consumed at most once by the matcher:
no replacement text occurs twice in the output of `match_translations`
(conjunct 1); every accepted match comes from a translation pair scoring
at least the 40 threshold against the box text (conjunct 2); the candidate
selected by the inner fold is a highest-scoring still-available pair
(conjunct 3); and on boxes [LONG, LON] with the single translation
LONG ↦ ЛОНГ exactly the exact-match box LONG is matched (conjunct 4). -/
theorem matcher_consumes_each_translation_once :
    (∀ (boxes : List Box) (trs : List (String × String)),
      ((match_translations boxes trs).map Prod.snd).Nodup)
    ∧ (∀ (boxes : List Box) (trs : List (String × String)) (b : Box) (t : String),
        (b, t) ∈ match_translations boxes trs →
        ∃ o, (o, t) ∈ trs ∧ scoreOf (Py.strip b.text) o ≥ 40)
    ∧ (∀ (d : String) (trs : List (String × String)) (used : List String)
        (t : String) (s : ℚ), bestMatch d trs used = (some t, s) →
        ∀ o t2, (o, t2) ∈ trs → t2 ∉ used → scoreOf d o ≤ s)
    ∧ match_translations [longBox, lonBox] [("LONG", "ЛОНГ")] = [(longBox, "ЛОНГ")] := by
  refine ⟨?_, ?_, ?_, match_example⟩
  · intro boxes trs
    exact (matchGo_nodup trs (sortBoxes boxes) []).1
  · intro boxes trs b t h
    exact matchGo_threshold trs (sortBoxes boxes) [] b t h
  · intro d trs used t s h o t2 hmem hnu
    have hle := (bestMatch_score_max d used trs (none, 0)).2 o t2 hmem hnu
    rw [bestMatch] at h
    rw [h] at hle
    exact hle

/-- Witness for C6: the no-duplicates and threshold facts evaluated on the
concrete LONG / LON instance. -/
theorem matcher_consumes_each_translation_once_witness :
    ((match_translations [longBox, lonBox] [("LONG", "ЛОНГ")]).map Prod.snd).Nodup
    ∧ (∃ o, (o, "ЛОНГ") ∈ [("LONG", "ЛОНГ")] ∧ scoreOf (Py.strip longBox.text) o ≥ 40)
    ∧ (∀ o t2, (o, t2) ∈ [("LONG", "ЛОНГ")] → t2 ∉ ([] : List String) →
        scoreOf "LONG" o ≤ 100) := by
  refine ⟨matcher_consumes_each_translation_once.1 [longBox, lonBox] [("LONG", "ЛОНГ")],
    ?_, ?_⟩
  · apply matcher_consumes_each_translation_once.2.1 [longBox, lonBox]
      [("LONG", "ЛОНГ")] longBox "ЛОНГ"
    rw [match_example]
    exact List.mem_singleton.mpr rfl
  · intro o t2 hmem hnu
    exact matcher_consumes_each_translation_once.2.2.1 "LONG" [("LONG", "ЛОНГ")] []
      "ЛОНГ" 100 bm_long o t2 hmem hnu

/-- Box reading AAA over rectangle (0,0,10,10). -/
def boxA : Box := ⟨"AAA", [(0, 0), (10, 0), (10, 10), (0, 10)], 1, ⟨0, 0, 10, 10⟩⟩

/-- Box reading BBB over the same rectangle (0,0,10,10). -/
def boxB : Box := ⟨"BBB", [(0, 0), (10, 0), (10, 10), (0, 10)], 1, ⟨0, 0, 10, 10⟩⟩

/-- Counterexample to C5 as stated: `match_translations` itself performs no
overlap rejection, so two boxes over the same rectangle, each exactly
matching a different translation pair, both appear in the accepted match
list even though their rectangles fully overlap (shared area 100). -/
theorem matcher_overlap_counterexample :
    match_translations [boxA, boxB] [("AAA", "X"), ("BBB", "Y")]
      = [(boxA, "X"), (boxB, "Y")]
    ∧ sharedArea boxA.bbox_rect boxB.bbox_rect = 100 := by
  constructor
  · rw [match_translations,
      show sortBoxes [boxA, boxB] = [boxA, boxB] from List.mergeSort_of_sorted (by decide)]
    decide
  · decide

theorem sharedArea_eq_zero_of_not_overlap (r p : Rect)
    (h : rectOverlapB r p = false) : sharedArea p r = 0 := by
  unfold rectOverlapB at h
  simp only [Bool.not_eq_false', Bool.or_eq_true, decide_eq_true_eq] at h
  unfold sharedArea
  rcases h with ((h | h) | h) | h
  · apply mul_eq_zero_of_left
    have h1 : min p.x2 r.x2 ≤ r.x2 := min_le_right _ _
    have h2 : p.x1 ≤ max p.x1 r.x1 := le_max_left _ _
    have h3 : min p.x2 r.x2 - max p.x1 r.x1 ≤ 0 := by omega
    exact max_eq_left h3
  · apply mul_eq_zero_of_left
    have h1 : min p.x2 r.x2 ≤ p.x2 := min_le_left _ _
    have h2 : r.x1 ≤ max p.x1 r.x1 := le_max_right _ _
    have h3 : min p.x2 r.x2 - max p.x1 r.x1 ≤ 0 := by omega
    exact max_eq_left h3
  · apply mul_eq_zero_of_right
    have h1 : min p.y2 r.y2 ≤ r.y2 := min_le_right _ _
    have h2 : p.y1 ≤ max p.y1 r.y1 := le_max_left _ _
    have h3 : min p.y2 r.y2 - max p.y1 r.y1 ≤ 0 := by omega
    exact max_eq_left h3
  · apply mul_eq_zero_of_right
    have h1 : min p.y2 r.y2 ≤ p.y2 := min_le_left _ _
    have h2 : r.y1 ≤ max p.y1 r.y1 := le_max_right _ _
    have h3 : min p.y2 r.y2 - max p.y1 r.y1 ≤ 0 := by omega
    exact max_eq_left h3

theorem processMatched_pairwise {Img : Type}
    (apply : Img → Img → Box × String → Except String Img) (original : Img) :
    ∀ (matched : List (Box × String)) (cur : Img) (regions : List Rect)
      (out : Img × List Rect),
      List.Pairwise (fun a b => sharedArea a b = 0) regions →
      processMatched apply original matched cur regions = .ok out →
      List.Pairwise (fun a b => sharedArea a b = 0) out.2 := by
  intro matched
  induction matched with
  | nil =>
    intro cur regions out hpw h
    rw [processMatched] at h
    injection h with h
    rw [← h]
    exact hpw
  | cons m rest ih =>
    intro cur regions out hpw h
    obtain ⟨box, t⟩ := m
    rw [processMatched] at h
    by_cases hskip : regions.any (fun p => rectOverlapB box.bbox_rect p) = true
    · rw [if_pos hskip] at h
      exact ih cur regions out hpw h
    · rw [if_neg hskip] at h
      cases happ : apply original cur (box, t) with
      | error e => rw [happ] at h; exact absurd h (by simp)
      | ok result2 =>
        rw [happ] at h
        refine ih result2 (regions ++ [box.bbox_rect]) out ?_ h
        rw [List.pairwise_append]
        refine ⟨hpw, List.pairwise_singleton _ _, ?_⟩
        intro a ha b hb
        rw [List.mem_singleton] at hb
        rw [hb]
        apply sharedArea_eq_zero_of_not_overlap
        rw [List.any_eq_true] at hskip
        push_neg at hskip
        have := hskip a ha
        simpa using this

/-- C5 amended: the list of regions actually replaced by the per-match loop
of `process_image_sync` is pairwise non-overlapping — any two of its
rectangles have zero shared area, the first-accepted rectangle winning
(later overlapping candidates are skipped). -/
theorem replaced_regions_no_overlap :
    ∀ (Img : Type) (apply : Img → Img → Box × String → Except String Img)
      (original cur : Img) (matched : List (Box × String)) (out : Img × List Rect),
      processMatched apply original matched cur [] = .ok out →
      List.Pairwise (fun a b => sharedArea a b = 0) out.2 :=
  fun _ apply original cur matched out h =>
    processMatched_pairwise apply original matched cur [] out List.Pairwise.nil h

/-- Per-match step that always succeeds and keeps the working bitmap. -/
def applyOk : Nat → Nat → Box × String → Except String Nat := fun _ img _ => .ok img

/-- Witness for the amended C5: on the two fully-overlapping accepted
matches of the counterexample, the loop replaces only the first region. -/
theorem replaced_regions_no_overlap_witness :
    processMatched applyOk 0 [(boxA, "X"), (boxB, "Y")] 0 []
      = .ok (0, [Rect.mk 0 0 10 10])
    ∧ List.Pairwise (fun a b => sharedArea a b = 0) [Rect.mk 0 0 10 10] := by
  have hp : processMatched applyOk 0 [(boxA, "X"), (boxB, "Y")] 0 []
      = .ok ((0 : Nat), [Rect.mk 0 0 10 10]) := by rfl
  refine ⟨hp, ?_⟩
  exact replaced_regions_no_overlap Nat applyOk 0 0 [(boxA, "X"), (boxB, "Y")]
    ((0 : Nat), [Rect.mk 0 0 10 10]) hp

/-- The OCR payload of a single detection reading HI. -/
def ocrHi : OcrData := ⟨["HI"], [[(0, 0), (20, 0), (20, 10), (0, 10)]], [1]⟩

/-- The detected box that `extract_bounding_boxes` builds from `ocrHi`. -/
def hiBox : Box := ⟨"HI", [(0, 0), (20, 0), (20, 10), (0, 10)], 1, ⟨0, 0, 20, 10⟩⟩

/-- Per-match step that raises, standing for any per-image exception
inside the replacement loop (PIL/OpenCV failure). -/
def applyBoom : Nat → Nat → Box × String → Except String Nat := fun _ _ _ => .error "boom"

theorem extract_ocrHi : extract_bounding_boxes (some ocrHi) = .ok [hiBox] := by rfl

theorem match_hi : match_translations [hiBox] [("HI", "ПРИВЕТ")] = [(hiBox, "ПРИВЕТ")] := by
  rw [match_translations,
    show sortBoxes [hiBox] = [hiBox] from List.mergeSort_of_sorted (List.pairwise_singleton _ _)]
  decide

/-- Counterexample to C2 as stated: when a per-image exception occurs
inside the replacement loop, `process_image_sync` returns `None`
(`except Exception ... return None`), not the original bitmap. -/
theorem replacer_exception_counterexample :
    process_image_sync true (.ok (0 : Nat)) (some ocrHi) applyBoom [("HI", "ПРИВЕТ")] = none
    ∧ (none : Option Nat) ≠ some 0 := by
  constructor
  · have hproc : processMatched applyBoom (0 : Nat) [(hiBox, "ПРИВЕТ")] 0 []
        = .error "boom" := by rfl
    simp [process_image_sync, extract_ocrHi, match_hi, hproc]
  · simp

/-- C2 amended: `process_image_sync` never raises (it is a total function
into `Option`); when OCR detection yields `None` (hence no boxes), or when
no match is accepted, it returns the original bitmap unchanged; a
per-image exception instead yields `None` (see the counterexample). -/
theorem replacer_degrades_to_original :
    (∀ (Img : Type) (img : Img) (apply : Img → Img → Box × String → Except String Img)
        (trs : List (String × String)),
        process_image_sync true (.ok img) none apply trs = some img)
    ∧ (∀ (Img : Type) (img : Img) (ocr : Option OcrData)
        (apply : Img → Img → Box × String → Except String Img)
        (trs : List (String × String)) (boxes : List Box),
        extract_bounding_boxes ocr = .ok boxes →
        match_translations boxes trs = [] →
        process_image_sync true (.ok img) ocr apply trs = some img) := by
  constructor
  · intro Img img apply trs
    simp [process_image_sync, extract_bounding_boxes]
  · intro Img img ocr apply trs boxes hext hm
    simp only [process_image_sync, hext]
    by_cases hb : boxes = []
    · simp [hb]
    · simp [hb, hm]

/-- Witness for the amended C2: with no OCR result the original bitmap 7
comes back; the same with a detected box but an empty translation set. -/
theorem replacer_degrades_to_original_witness :
    process_image_sync true (.ok (7 : Nat)) none applyOk [("HI", "ПРИВЕТ")] = some 7
    ∧ process_image_sync true (.ok (7 : Nat)) (some ocrHi) applyOk [] = some 7 := by
  constructor
  · exact replacer_degrades_to_original.1 Nat 7 applyOk [("HI", "ПРИВЕТ")]
  · exact replacer_degrades_to_original.2 Nat 7 (some ocrHi) applyOk [] [hiBox]
      extract_ocrHi (by
        rw [match_translations,
          show sortBoxes [hiBox] = [hiBox] from
            List.mergeSort_of_sorted (List.pairwise_singleton _ _)]
        decide)

end Replacer

namespace Vision

/-- Outcome of one attempt of a provider (`await asyncio.wait_for(
provider.extract_text(...), timeout)`): a result, a timeout of the
wait, or a provider-raised exception. -/
inductive Attempt (R : Type) where
  | ok (r : R)
  | timeout
  | fail (msg : String)
deriving DecidableEq, Repr

/-- A vision provider: its `name`, its `is_available` flag, and the
outcome of its n-th attempt. -/
structure Provider (R : Type) where
  name : String
  is_available : Bool
  attempt : Nat → Attempt R

/-- Whether an attempt outcome is a success. -/
def Attempt.isOk {R : Type} : Attempt R → Bool
  | .ok _ => true
  | _ => false

/-- The recorded `last_error` message of a failed attempt
(`TimeoutError(f"{name} timed out after {timeout}s")` or the raised
exception). -/
def attemptError {R : Type} (timeout_sec : ℚ) (p : Provider R) : Attempt R → Option String
  | .ok _ => none
  | .timeout => some (p.name ++ " timed out after " ++ toString timeout_sec ++ "s")
  | .fail m => some m

/-- The error raised when every provider and attempt is exhausted
(`VisionProviderError(f"All providers failed. Last error: {last_error}",
provider="fallback_chain")`). -/
structure VisionProviderError where
  msg : String
  lastError : Option String
  provider : String
deriving DecidableEq, Repr

/-- The retry loop of `extract_text` for one provider: up to `n` attempts
starting at index `i`, threading the recorded `last_error`; also returns
the trace of (provider name, attempt index) calls made. -/
def tryProvider {R : Type} (timeout_sec : ℚ) (p : Provider R) :
    Nat → Nat → Option String → Option R × Option String × List (String × Nat)
  | 0, _, last => (none, last, [])
  | n + 1, i, last =>
    match p.attempt i with
    | .ok r => (some r, last, [(p.name, i)])
    | .timeout =>
      let res := tryProvider timeout_sec p n (i + 1)
        (some (p.name ++ " timed out after " ++ toString timeout_sec ++ "s"))
      (res.1, res.2.1, (p.name, i) :: res.2.2)
    | .fail m =>
      let res := tryProvider timeout_sec p n (i + 1) (some m)
      (res.1, res.2.1, (p.name, i) :: res.2.2)

/-- The provider loop of `extract_text`: providers in order, each with
`max_retries + 1` attempts, returning on the first success. -/
def chainGo {R : Type} (timeout_sec : ℚ) (max_retries : Nat) :
    List (Provider R) → Option String → Option R × Option String × List (String × Nat)
  | [], last => (none, last, [])
  | p :: ps, last =>
    match tryProvider timeout_sec p (max_retries + 1) 0 last with
    | (some r, l, tr) => (some r, l, tr)
    | (none, l, tr) =>
      let res := chainGo timeout_sec max_retries ps l
      (res.1, res.2.1, tr ++ res.2.2)

/-- `FallbackChain` after construction: `_providers` (already filtered to
the available ones), `timeout_sec` and `max_retries`. -/
structure FallbackChain (R : Type) where
  providers : List (Provider R)
  timeout_sec : ℚ
  max_retries : Nat

/-- The constructor: filter to available providers and raise `ValueError`
when none remain. -/
def FallbackChain.make {R : Type} (providers : List (Provider R))
    (timeout_sec : ℚ) (max_retries : Nat) : Except String (FallbackChain R) :=
  match providers.filter (·.is_available) with
  | [] => .error "No available providers in fallback chain"
  | p :: ps => .ok ⟨p :: ps, timeout_sec, max_retries⟩

/-- `extract_text`: run the provider loop; on success return the result,
otherwise raise the aggregate `VisionProviderError` naming the last
failure.  The trace of provider calls is returned alongside. -/
def extract_text {R : Type} (c : FallbackChain R) :
    Except VisionProviderError R × List (String × Nat) :=
  match chainGo c.timeout_sec c.max_retries c.providers none with
  | (some r, _, tr) => (.ok r, tr)
  | (none, last, tr) =>
    (.error ⟨"All providers failed. Last error: "
        ++ (match last with | some m => m | none => "None"),
      last, "fallback_chain"⟩, tr)

theorem tryProvider_allFail {R : Type} (t : ℚ) (p : Provider R) :
    ∀ (n : Nat) (i : Nat) (last : Option String),
      (∀ j, (p.attempt j).isOk = false) →
      tryProvider t p (n + 1) i last
        = (none, attemptError t p (p.attempt (i + n)),
           (List.range' i (n + 1)).map (fun j => (p.name, j))) := by
  intro n
  induction n with
  | zero =>
    intro i last hfail
    have hfi := hfail i
    rw [tryProvider]
    cases ha : p.attempt i with
    | ok r => rw [ha] at hfi; simp [Attempt.isOk] at hfi
    | timeout => simp [tryProvider, List.range', attemptError, ha]
    | fail m => simp [tryProvider, List.range', attemptError, ha]
  | succ n ih =>
    intro i last hfail
    have hfi := hfail i
    rw [tryProvider]
    cases ha : p.attempt i with
    | ok r => rw [ha] at hfi; simp [Attempt.isOk] at hfi
    | timeout =>
      simp only [ih (i + 1) (some (p.name ++ " timed out after " ++ toString t ++ "s")) hfail,
        List.range', List.map_cons]
      have hx : i + 1 + n = i + (n + 1) := by omega
      rw [hx]
    | fail m =>
      simp only [ih (i + 1) (some m) hfail, List.range', List.map_cons]
      have hx : i + 1 + n = i + (n + 1) := by omega
      rw [hx]

theorem tryProvider_first_success {R : Type} (t : ℚ) (p : Provider R) (r : R)
    (n : Nat) (i : Nat) (last : Option String) (h : p.attempt i = .ok r) :
    tryProvider t p (n + 1) i last = (some r, last, [(p.name, i)]) := by
  rw [tryProvider, h]

end Vision

namespace Vision

/-- Expected call trace of a run in which every listed provider exhausts
all of its `maxR + 1` attempts, in order. -/
def fullTrace {R : Type} (maxR : Nat) (ps : List (Provider R)) : List (String × Nat) :=
  ps.foldr (fun p acc => (List.range' 0 (maxR + 1)).map (fun j => (p.name, j)) ++ acc) []

theorem chainGo_allFail {R : Type} (t : ℚ) (maxR : Nat) :
    ∀ (ps : List (Provider R)) (last : Option String),
      (∀ p ∈ ps, ∀ j, (p.attempt j).isOk = false) →
      (chainGo t maxR ps last).1 = none
      ∧ (chainGo t maxR ps last).2.1 = (match ps.getLast? with
          | none => last
          | some q => attemptError t q (q.attempt maxR))
      ∧ (chainGo t maxR ps last).2.2 = fullTrace maxR ps := by
  intro ps
  induction ps with
  | nil =>
    intro last hfail
    simp [chainGo, fullTrace]
  | cons p rest ih =>
    intro last hfail
    have hp := hfail p (List.mem_cons_self _ _)
    have htp := tryProvider_allFail t p maxR 0 last hp
    rw [chainGo, htp]
    simp only [Nat.zero_add] at htp ⊢
    have ihr := ih (attemptError t p (p.attempt maxR))
      (fun q hq => hfail q (List.mem_cons_of_mem _ hq))
    refine ⟨ihr.1, ?_, ?_⟩
    · rw [ihr.2.1]
      cases rest with
      | nil => simp [chainGo]
      | cons q qs =>
        rw [List.getLast?_cons_cons]
        cases hgl : (q :: qs).getLast? with
        | none => rw [List.getLast?_eq_none_iff] at hgl; exact absurd hgl (by simp)
        | some x => rfl
    · rw [ihr.2.2]
      simp [fullTrace]

theorem chainGo_first_success {R : Type} (t : ℚ) (maxR : Nat) (p : Provider R)
    (r : R) (hp : p.attempt 0 = .ok r) :
    ∀ (ps1 ps2 : List (Provider R)) (last : Option String),
      (∀ q ∈ ps1, ∀ j, (q.attempt j).isOk = false) →
      (chainGo t maxR (ps1 ++ p :: ps2) last).1 = some r
      ∧ (chainGo t maxR (ps1 ++ p :: ps2) last).2.2
          = fullTrace maxR ps1 ++ [(p.name, 0)] := by
  intro ps1
  induction ps1 with
  | nil =>
    intro ps2 last hfail
    rw [List.nil_append, chainGo, tryProvider_first_success t p r maxR 0 last hp]
    simp [fullTrace]
  | cons q rest ih =>
    intro ps2 last hfail
    have hq := hfail q (List.mem_cons_self _ _)
    have htq := tryProvider_allFail t q maxR 0 last hq
    rw [List.cons_append, chainGo, htq]
    simp only
    have ihr := ih ps2 (attemptError t q (q.attempt (0 + maxR)))
      (fun x hx => hfail x (List.mem_cons_of_mem _ hx))
    refine ⟨ihr.1, ?_⟩
    rw [ihr.2]
    simp [fullTrace]

theorem tryProvider_trace {R : Type} (t : ℚ) (p : Provider R) :
    ∀ (n i : Nat) (last : Option String),
      ((tryProvider t p n i last).2.2).length ≤ n
      ∧ ∀ c ∈ (tryProvider t p n i last).2.2, c.1 = p.name ∧ i ≤ c.2 ∧ c.2 < i + n := by
  intro n
  induction n with
  | zero => intro i last; simp [tryProvider]
  | succ n ih =>
    intro i last
    rw [tryProvider]
    cases ha : p.attempt i with
    | ok r =>
      simp only [List.length_cons, List.length_nil]
      refine ⟨by omega, ?_⟩
      intro c hc
      rw [List.mem_singleton] at hc
      rw [hc]
      exact ⟨rfl, le_refl _, by omega⟩
    | timeout =>
      simp only [List.length_cons]
      have ihr := ih (i + 1) (some (p.name ++ " timed out after " ++ toString t ++ "s"))
      refine ⟨by have := ihr.1; omega, ?_⟩
      intro c hc
      rw [List.mem_cons] at hc
      rcases hc with h1 | h2
      · rw [h1]; exact ⟨rfl, le_refl _, by omega⟩
      · have := ihr.2 c h2
        exact ⟨this.1, by omega, by omega⟩
    | fail m =>
      simp only [List.length_cons]
      have ihr := ih (i + 1) (some m)
      refine ⟨by have := ihr.1; omega, ?_⟩
      intro c hc
      rw [List.mem_cons] at hc
      rcases hc with h1 | h2
      · rw [h1]; exact ⟨rfl, le_refl _, by omega⟩
      · have := ihr.2 c h2
        exact ⟨this.1, by omega, by omega⟩

theorem chainGo_trace {R : Type} (t : ℚ) (maxR : Nat) :
    ∀ (ps : List (Provider R)) (last : Option String),
      ((chainGo t maxR ps last).2.2).length ≤ ps.length * (maxR + 1)
      ∧ ∀ c ∈ (chainGo t maxR ps last).2.2, c.1 ∈ ps.map (·.name) ∧ c.2 ≤ maxR := by
  intro ps
  induction ps with
  | nil => intro last; simp [chainGo]
  | cons p rest ih =>
    intro last
    rw [chainGo]
    have htp := tryProvider_trace t p (maxR + 1) 0 last
    cases hres : tryProvider t p (maxR + 1) 0 last with
    | mk o rest2 =>
      obtain ⟨l2, tr⟩ := rest2
      rw [hres] at htp
      simp only at htp
      cases o with
      | some r =>
        simp only
        refine ⟨?_, ?_⟩
        · calc tr.length ≤ maxR + 1 := htp.1
          _ ≤ (rest.length + 1) * (maxR + 1) := by
              have h1 : 1 * (maxR + 1) ≤ (rest.length + 1) * (maxR + 1) :=
                Nat.mul_le_mul_right _ (by omega)
              omega
        · intro c hc
          have := htp.2 c hc
          exact ⟨by rw [List.map_cons, List.mem_cons]; left; exact this.1, by omega⟩
      | none =>
        simp only
        have ihr := ih l2
        refine ⟨?_, ?_⟩
        · rw [List.length_append]
          have h1 := htp.1
          have h2 := ihr.1
          calc tr.length + ((chainGo t maxR rest l2).2.2).length
              ≤ (maxR + 1) + rest.length * (maxR + 1) := by omega
          _ = (rest.length + 1) * (maxR + 1) := by ring
        · intro c hc
          rw [List.mem_append] at hc
          rcases hc with h1 | h2
          · have := htp.2 c h1
            exact ⟨by rw [List.map_cons, List.mem_cons]; left; exact this.1, by omega⟩
          · have := ihr.2 c h2
            exact ⟨by rw [List.map_cons, List.mem_cons]; right; exact this.1, this.2⟩

end Vision

namespace Vision

theorem chainGo_count {R : Type} (t : ℚ) (maxR : Nat) :
    ∀ (ps : List (Provider R)) (last : Option String),
      (ps.map (·.name)).Nodup →
      ∀ name, (((chainGo t maxR ps last).2.2).filter (fun e => e.1 = name)).length
        ≤ maxR + 1 := by
  intro ps
  induction ps with
  | nil => intro last hnd name; simp [chainGo]
  | cons p rest ih =>
    intro last hnd name
    simp only [List.map_cons, List.nodup_cons] at hnd
    rw [chainGo]
    have htp := tryProvider_trace t p (maxR + 1) 0 last
    cases hres : tryProvider t p (maxR + 1) 0 last with
    | mk o rest2 =>
      obtain ⟨l2, tr⟩ := rest2
      rw [hres] at htp
      simp only at htp
      have htr_name : ∀ c ∈ tr, c.1 = p.name := fun c hc => (htp.2 c hc).1
      cases o with
      | some r =>
        simp only
        by_cases hname : p.name = name
        · calc (tr.filter (fun e => e.1 = name)).length
              ≤ tr.length := List.length_filter_le _ _
          _ ≤ maxR + 1 := htp.1
        · have : tr.filter (fun e => e.1 = name) = [] := by
            rw [List.filter_eq_nil_iff]
            intro c hc
            simp only [decide_eq_true_eq]
            rw [htr_name c hc]
            exact hname
          rw [this]
          simp
      | none =>
        simp only
        rw [List.filter_append, List.length_append]
        have hrest_names := fun c hc => ((chainGo_trace t maxR rest l2).2 c hc).1
        by_cases hname : p.name = name
        · have hzero : ((chainGo t maxR rest l2).2.2).filter (fun e => e.1 = name) = [] := by
            rw [List.filter_eq_nil_iff]
            intro c hc
            simp only [decide_eq_true_eq]
            intro hcn
            apply hnd.1
            rw [hname, ← hcn]
            exact hrest_names c hc
          rw [hzero]
          simp only [List.length_nil, Nat.add_zero]
          calc (tr.filter (fun e => e.1 = name)).length
              ≤ tr.length := List.length_filter_le _ _
          _ ≤ maxR + 1 := htp.1
        · have hzero : tr.filter (fun e => e.1 = name) = [] := by
            rw [List.filter_eq_nil_iff]
            intro c hc
            simp only [decide_eq_true_eq]
            rw [htr_name c hc]
            exact hname
          rw [hzero]
          simp only [List.length_nil, Nat.zero_add]
          exact ih l2 hnd.2 name

end Vision

namespace Vision

theorem getLast?_mem {α : Type} : ∀ (l : List α) (a : α), l.getLast? = some a → a ∈ l := by
  intro l
  induction l with
  | nil => intro a h; simp at h
  | cons x xs ih =>
    intro a h
    cases xs with
    | nil =>
      simp [List.getLast?] at h
      simp [h]
    | cons y ys =>
      rw [List.getLast?_cons_cons] at h
      exact List.mem_cons_of_mem _ (ih a h)

theorem fullTrace_names {R : Type} (maxR : Nat) :
    ∀ (ps : List (Provider R)) (n : String),
      n ∈ (fullTrace maxR ps).map Prod.fst → n ∈ ps.map (·.name) := by
  intro ps
  induction ps with
  | nil => intro n h; simp [fullTrace] at h
  | cons a as ih =>
    intro n h
    simp only [fullTrace, List.foldr_cons, List.map_append, List.mem_append] at h
    rcases h with h1 | h2
    · simp only [List.map_map, List.mem_map] at h1
      obtain ⟨j, _, hj⟩ := h1
      simp only [Function.comp] at hj
      rw [List.map_cons, List.mem_cons]
      left
      rw [← hj]
    · rw [List.map_cons, List.mem_cons]
      right
      exact ih n h2

/-- C4: `FallbackChain.extract_text` iterates providers in construction
order (the constructor keeps exactly the available providers, in order);
each provider is attempted at most `max_retries + 1` times, every attempt
being one timeout-bounded call (conjunct 2, for chains with distinct
provider names, and conjunct 3 bounding every attempt index by
`max_retries`); on the first successful attempt the result is returned
immediately and no later provider is ever invoked (conjunct 4, whose trace
equality shows the run stops at the succeeding provider); and when every
provider and attempt is exhausted it raises an aggregate error naming the
last failure, i.e. the error recorded for the final attempt of the final
provider (conjunct 5). -/
theorem fallback_chain_spec :
    (∀ (R : Type) (providers : List (Provider R)) (t : ℚ) (maxR : Nat)
        (c : FallbackChain R),
        FallbackChain.make providers t maxR = .ok c →
        c.providers = providers.filter (·.is_available)
        ∧ c.timeout_sec = t ∧ c.max_retries = maxR)
    ∧ (∀ (R : Type) (c : FallbackChain R),
        (c.providers.map (·.name)).Nodup →
        ∀ name, (((extract_text c).2).filter (fun e => e.1 = name)).length
          ≤ c.max_retries + 1)
    ∧ (∀ (R : Type) (c : FallbackChain R) (e : String × Nat),
        e ∈ (extract_text c).2 →
        e.1 ∈ c.providers.map (·.name) ∧ e.2 ≤ c.max_retries)
    ∧ (∀ (R : Type) (ps1 ps2 : List (Provider R)) (p : Provider R)
        (t : ℚ) (maxR : Nat) (r : R),
        (∀ q ∈ ps1, ∀ j, (q.attempt j).isOk = false) →
        p.attempt 0 = .ok r →
        (extract_text ⟨ps1 ++ p :: ps2, t, maxR⟩).1 = .ok r
        ∧ (extract_text ⟨ps1 ++ p :: ps2, t, maxR⟩).2
            = fullTrace maxR ps1 ++ [(p.name, 0)]
        ∧ ∀ q ∈ ps2, q.name ∉ (ps1.map (·.name)) → q.name ≠ p.name →
            q.name ∉ ((extract_text ⟨ps1 ++ p :: ps2, t, maxR⟩).2).map Prod.fst)
    ∧ (∀ (R : Type) (c : FallbackChain R) (lp : Provider R),
        c.providers.getLast? = some lp →
        (∀ p ∈ c.providers, ∀ j, (p.attempt j).isOk = false) →
        ∃ err : VisionProviderError,
          (extract_text c).1 = .error err
          ∧ err.lastError = attemptError c.timeout_sec lp (lp.attempt c.max_retries)
          ∧ err.provider = "fallback_chain"
          ∧ ∃ m, err.lastError = some m
              ∧ err.msg = "All providers failed. Last error: " ++ m) := by
  refine ⟨?_, ?_, ?_, ?_, ?_⟩
  · intro R providers t maxR c hmk
    rw [FallbackChain.make] at hmk
    cases hf : providers.filter (·.is_available) with
    | nil =>
      rw [hf] at hmk
      simp only at hmk
      exact Except.noConfusion hmk
    | cons q qs =>
      rw [hf] at hmk
      simp only at hmk
      injection hmk with hmk
      subst hmk
      exact ⟨rfl, rfl, rfl⟩
  · intro R c hnd name
    rw [extract_text]
    have hcount := chainGo_count c.timeout_sec c.max_retries c.providers none hnd name
    cases hgo : chainGo c.timeout_sec c.max_retries c.providers none with
    | mk o rest2 =>
      obtain ⟨l2, tr⟩ := rest2
      rw [hgo] at hcount
      cases o with
      | some r => exact hcount
      | none => exact hcount
  · intro R c e he
    rw [extract_text] at he
    have htr := chainGo_trace c.timeout_sec c.max_retries c.providers none
    cases hgo : chainGo c.timeout_sec c.max_retries c.providers none with
    | mk o rest2 =>
      obtain ⟨l2, tr⟩ := rest2
      rw [hgo] at htr he
      cases o with
      | some r => exact htr.2 e he
      | none => exact htr.2 e he
  · intro R ps1 ps2 p t maxR r hfail hp
    have hcs := chainGo_first_success t maxR p r hp ps1 ps2 none hfail
    rw [extract_text]
    cases hgo : chainGo t maxR (ps1 ++ p :: ps2) none with
    | mk o rest2 =>
      obtain ⟨l2, tr⟩ := rest2
      rw [hgo] at hcs
      simp only at hcs
      cases o with
      | none => exact absurd hcs.1 (by simp)
      | some r2 =>
        have hr : r2 = r := by injection hcs.1
        subst hr
        refine ⟨rfl, hcs.2, ?_⟩
        intro q hq hnot1 hnot2 hmem
        rw [hcs.2, List.map_append, List.mem_append] at hmem
        rcases hmem with h1 | h2
        · exact hnot1 (fullTrace_names maxR ps1 q.name h1)
        · simp at h2
          exact hnot2 h2
  · intro R c lp hlast hfail
    have hca := chainGo_allFail c.timeout_sec c.max_retries c.providers none hfail
    rw [extract_text]
    cases hgo : chainGo c.timeout_sec c.max_retries c.providers none with
    | mk o rest2 =>
      obtain ⟨l2, tr⟩ := rest2
      rw [hgo] at hca
      simp only at hca
      cases o with
      | some r => exact absurd hca.1 (by simp)
      | none =>
        have hl2 : l2 = attemptError c.timeout_sec lp (lp.attempt c.max_retries) := by
          rw [hca.2.1, hlast]
        have hsome : ∃ m, attemptError c.timeout_sec lp (lp.attempt c.max_retries) = some m := by
          have hlp := hfail lp (getLast?_mem c.providers lp hlast)
          have h2 := hlp c.max_retries
          cases ha : lp.attempt c.max_retries with
          | ok r2 => rw [ha] at h2; simp [Attempt.isOk] at h2
          | timeout => exact ⟨_, rfl⟩
          | fail m => exact ⟨_, rfl⟩
        obtain ⟨m, hm⟩ := hsome
        have hl2m : l2 = some m := by rw [hl2]; exact hm
        subst hl2m
        refine ⟨⟨"All providers failed. Last error: " ++ m, some m, "fallback_chain"⟩,
          rfl, ?_, rfl, m, rfl, rfl⟩
        rw [hl2]

end Vision

namespace Vision

/-- Provider that always times out. -/
def p1 : Provider Nat := ⟨"p1", true, fun _ => .timeout⟩

/-- Provider that always succeeds with 42. -/
def p2 : Provider Nat := ⟨"p2", true, fun _ => .ok 42⟩

/-- A further provider that would succeed, but must never be called. -/
def p3 : Provider Nat := ⟨"p3", true, fun _ => .ok 7⟩

/-- Provider that always raises. -/
def pBad : Provider Nat := ⟨"bad", true, fun _ => .fail "boom"⟩

/-- Witness for C4 at concrete providers: with `max_retries = 1`, P1
(always times out) is attempted exactly twice, P2 succeeds on its first
attempt and its result is returned, P3 is never called; and a chain of
one always-failing provider raises the aggregate error naming the last
failure. -/
theorem fallback_chain_spec_witness :
    (extract_text (⟨[p1] ++ p2 :: [p3], 30, 1⟩ : FallbackChain Nat)).1 = .ok 42
    ∧ (extract_text (⟨[p1] ++ p2 :: [p3], 30, 1⟩ : FallbackChain Nat)).2
        = [("p1", 0), ("p1", 1), ("p2", 0)]
    ∧ "p3" ∉ ((extract_text (⟨[p1] ++ p2 :: [p3], 30, 1⟩ : FallbackChain Nat)).2).map Prod.fst
    ∧ ∃ err : VisionProviderError,
        (extract_text (⟨[pBad], 30, 1⟩ : FallbackChain Nat)).1 = .error err
        ∧ err.lastError = some "boom"
        ∧ err.msg = "All providers failed. Last error: " ++ "boom" := by
  have hfail1 : ∀ q ∈ [p1], ∀ j, (Provider.attempt q j).isOk = false := by
    intro q hq j
    rw [List.mem_singleton] at hq
    subst hq
    rfl
  have h4 := fallback_chain_spec.2.2.2.1 Nat [p1] [p3] p2 30 1 42 hfail1 rfl
  refine ⟨h4.1, ?_, ?_, ?_⟩
  · rw [h4.2.1]; rfl
  · exact h4.2.2 p3 (List.mem_singleton.mpr rfl) (by decide) (by decide)
  · have hfail2 : ∀ q ∈ [pBad], ∀ j, (Provider.attempt q j).isOk = false := by
      intro q hq j
      rw [List.mem_singleton] at hq
      subst hq
      rfl
    have h5 := fallback_chain_spec.2.2.2.2 Nat ⟨[pBad], 30, 1⟩ pBad rfl hfail2
    obtain ⟨err, he1, he2, _, m, hm1, hm2⟩ := h5
    refine ⟨err, he1, ?_, ?_⟩
    · rw [he2]; rfl
    · have hmb : m = "boom" := by
        rw [he2] at hm1
        exact (Option.some.inj hm1).symm
      rw [hm2, hmb]

end Vision

namespace Translators

/-- Raw outcome of `googletrans.Translator.translate(text, src, dest)`:
a raised exception, `None`, or a result object whose `.text` attribute is
absent / `None` (inner `none`) or a string. -/
structure GoogleEnv where
  translateResult : Except String (Option (Option String))

/-- `google_translate` of `src/translators/google.py`: empty or
whitespace-only text is returned as is; otherwise every failure of the
underlying call — exception, `None` result, missing or `None` `.text` —
is caught and `None` is returned; a successful call returns its text. -/
def google_translate (env : GoogleEnv) (text : String) : Option String :=
  if text = "" ∨ Py.strip text = "" then some text
  else
    match env.translateResult with
    | .error _ => none
    | .ok none => none
    | .ok (some none) => none
    | .ok (some (some s)) => some s

/-- The collaborator calls `translate_text_with_fallback` can make, in
order of execution. -/
inductive TAction where
  | cacheLookup
  | geminiCall
  | googleCall
  | cacheWrite
deriving DecidableEq, Repr

/-- Environment of one `translate_text_with_fallback` run: the cache
lookup outcome, the (timeout-bounded) Gemini outcome, whether the
15-second wait on the Google call times out, and the Google call
behaviour. -/
structure FallbackEnv where
  cacheResult : Except String (Option String)
  geminiResult : Except String (Option String)
  googleTimeout : Bool
  google : GoogleEnv

/-- `translate_text_with_fallback` of `src/translators/fallback.py`,
returning the Python return value (`None` possible) together with the
trace of collaborator calls made. -/
def translate_text_with_fallback (env : FallbackEnv) (text : String)
    (use_cache : Bool) : Option String × List TAction :=
  if text = "" ∨ Py.strip text = "" then (some text, [])
  else
    let cacheActs : List TAction := if use_cache then [.cacheLookup] else []
    let cached : Option String :=
      if use_cache then
        match env.cacheResult with
        | .ok (some c) => if c = "" then none else some c
        | _ => none
      else none
    match cached with
    | some c => (some c, cacheActs)
    | none =>
      let translated : Option String :=
        match env.geminiResult with
        | .ok v => v
        | .error _ => none
      match translated with
      | some t =>
        (some t, cacheActs ++ [.geminiCall]
          ++ (if use_cache ∧ t ≠ "" then [.cacheWrite] else []))
      | none =>
        if env.googleTimeout then
          (some text, cacheActs ++ [.geminiCall, .googleCall])
        else
          match google_translate env.google text with
          | some t =>
            (some t, cacheActs ++ [.geminiCall, .googleCall]
              ++ (if use_cache ∧ t ≠ "" then [.cacheWrite] else []))
          | none => (none, cacheActs ++ [.geminiCall, .googleCall])

/-- `googletrans` raising (e.g. network down). -/
def googleDown : GoogleEnv := ⟨.error "connection refused"⟩

/-- Run with the cache unavailable, Gemini raising, and the Google call
not timing out but failing internally. -/
def allDownEnv : FallbackEnv := ⟨.error "no db", .error "gemini down", false, googleDown⟩

/-- C3 is a code bug: `google_translate` returns the sentinel `None`
instead of raising when the underlying call fails (it catches every
exception), and consequently `translate_text_with_fallback` returns
Python `None` — not a string, and not the original text — when Gemini
fails and Google Translate fails without a timeout.  This contradicts
the function docstring ("Returns: str: Translated English text, or
original text if all methods fail"). -/
theorem google_translate_sentinel :
    google_translate googleDown "Привет" = none
    ∧ (translate_text_with_fallback allDownEnv "Привет" true).1 = none := by
  constructor
  · rfl
  · rfl

/-- C10: empty or whitespace-only input short-circuits: the exact input
string is returned and no collaborator — cache or provider — is called. -/
theorem fallback_empty_text_short_circuit :
    ∀ (env : FallbackEnv) (text : String) (uc : Bool),
      (text = "" ∨ Py.strip text = "") →
      translate_text_with_fallback env text uc = (some text, []) := by
  intro env text uc h
  rw [translate_text_with_fallback, if_pos h]

/-- Witness for C10: the empty string and a whitespace-only string come
back unchanged with an empty call trace, even with every collaborator
failing. -/
theorem fallback_empty_text_short_circuit_witness :
    translate_text_with_fallback allDownEnv "" true = (some "", [])
    ∧ translate_text_with_fallback allDownEnv "  " false = (some "  ", []) := by
  exact ⟨fallback_empty_text_short_circuit allDownEnv "" true (Or.inl rfl),
    fallback_empty_text_short_circuit allDownEnv "  " false (Or.inr (by decide))⟩

end Translators

namespace ImageEditor

/-- `TextExtraction` dataclass of `src/vision/base.py`. -/
structure TextExtraction where
  original : String
  translated : String
  confidence : ℚ
deriving DecidableEq, Repr

/-- `VisionResult` dataclass of `src/vision/base.py`.  Note: it has a
`provider_name` field and no `provider_used` field. -/
structure VisionResult where
  extractions : List TextExtraction
  provider_name : String
deriving DecidableEq, Repr

/-- Outcome of the vision-chain stage in `extract_text_from_image`:
no chain configured, the chain raised, or a result. -/
inductive ChainOutcome where
  | noChain
  | raised (e : String)
  | result (r : VisionResult)

/-- The list-comprehension filter of the vision-chain branch: keep pairs
whose original and translated texts are both truthy (non-empty). -/
def chainTranslations (r : VisionResult) : List (String × String) :=
  r.extractions.filterMap (fun e =>
    if e.original ≠ "" ∧ e.translated ≠ "" then some (e.original, e.translated) else none)

/-- Python `str.replace` on character lists (all occurrences, scanning
left to right), fuelled by the input length; all patterns used by the
parser are non-empty. -/
def replaceChars : Nat → List Char → List Char → List Char → List Char
  | 0, l, _, _ => l
  | fuel + 1, l, old, new =>
    if old ≠ [] ∧ old.isPrefixOf l then
      new ++ replaceChars fuel (l.drop old.length) old new
    else
      match l with
      | [] => []
      | c :: rest => c :: replaceChars fuel rest old new

/-- Python `str.replace`. -/
def pyReplace (s old new : String) : String :=
  ⟨replaceChars s.data.length s.data old.data new.data⟩

/-- Python `str.split(sep)` for a single-character separator (keeps empty
pieces, yields one empty piece on empty input). -/
def splitOnChar (c : Char) (l : List Char) : List (List Char) :=
  l.foldr (fun ch acc =>
    match acc with
    | [] => [[ch]]
    | cur :: rest => if ch = c then [] :: cur :: rest else (ch :: cur) :: rest) [[]]

/-- Python `str.split(sep)` as strings. -/
def pySplit (s : String) (c : Char) : List String :=
  (splitOnChar c s.data).map (fun l => ⟨l⟩)

/-- One iteration of the direct-Gemini OCR parsing loop of
`extract_text_from_image`: strip the line, skip empty lines and lines
without an arrow, split on the arrow, clean both sides, and keep the
pair only when both sides are non-empty and different. -/
def parseLine (line : String) : Option (String × String) :=
  let l := Py.strip line
  if l = "" then none
  else if l.data.contains '→' then
    let parts := pySplit l '→'
    let original := Py.strip (pyReplace (pyReplace (parts.headD "") "ORIGINAL:" "") "-" "")
    let english :=
      match parts with
      | _ :: p1 :: _ => Py.strip (pyReplace p1 "ENGLISH:" "")
      | _ => original
    if original ≠ "" ∧ english ≠ "" ∧ original ≠ english then some (original, english)
    else none
  else none

/-- The direct-Gemini parsing loop over the OCR response text. -/
def parseDirect (ocrText : String) : List (String × String) :=
  (pySplit ocrText '\n').filterMap parseLine

/-- Environment of one `extract_text_from_image` run: the vision-chain
outcome and the direct Gemini call outcome (its possibly-empty response
text, or a raised exception giving `[]`). -/
structure EditorEnv where
  chain : ChainOutcome
  geminiText : Except String String

/-- `extract_text_from_image` of `src/ocr/image_editor.py`.  In the
vision-chain branch with a non-empty filtered translation list, the
success log accesses `result.provider_used` — an attribute `VisionResult`
does not define — so an `AttributeError` is raised before the `return`,
caught by the surrounding handler, and control falls through to the
direct Gemini path; the empty case falls through explicitly.  Hence
every branch ends in the direct-Gemini parse (or `[]` when that call
raises). -/
def extract_text_from_image (env : EditorEnv) : List (String × String) :=
  let direct : List (String × String) :=
    match env.geminiText with
    | .ok txt => parseDirect txt
    | .error _ => []
  match env.chain with
  | .result r => if chainTranslations r ≠ [] then direct else direct
  | _ => direct

/-- The translations dict built by `edit_image_text_sync` and handed to
`SeamlessTextReplacer.process_image_sync`; `None` when no translations
were extracted (the replacer is then never called). -/
def edit_image_text_sync_translations (env : EditorEnv) :
    Option (List (String × String)) :=
  match extract_text_from_image env with
  | [] => none
  | l => some (PyDict.ofList l)

theorem parseLine_ne (line : String) (p : String × String)
    (h : parseLine line = some p) : p.1 ≠ p.2 ∧ p.1 ≠ "" ∧ p.2 ≠ "" := by
  rw [parseLine] at h
  simp only at h
  split_ifs at h with h1 h2 h3
  · injection h with h
    rw [← h]
    exact ⟨h3.2.2, h3.1, h3.2.1⟩

theorem extract_mem (env : EditorEnv) (p : String × String)
    (h : p ∈ extract_text_from_image env) :
    ∃ line, parseLine line = some p := by
  rw [extract_text_from_image] at h
  have hd : ∀ q ∈ (match env.geminiText with
      | .ok txt => parseDirect txt
      | .error _ => ([] : List (String × String))), ∃ line, parseLine line = some q := by
    intro q hq
    cases hg : env.geminiText with
    | ok txt =>
      rw [hg] at hq
      simp only [parseDirect] at hq
      rw [List.mem_filterMap] at hq
      obtain ⟨line, _, hline⟩ := hq
      exact ⟨line, hline⟩
    | error e => rw [hg] at hq; simp at hq
  cases hc : env.chain with
  | result r =>
    rw [hc] at h
    simp only at h
    by_cases hne : chainTranslations r ≠ []
    · rw [if_pos hne] at h; exact hd p h
    · rw [if_neg hne] at h; exact hd p h
  | noChain => rw [hc] at h; exact hd p h
  | raised e => rw [hc] at h; exact hd p h

/-- C9: the translation mapping handed to the seamless replacer's matcher
contains no pair whose original equals its translated text (and no empty
side): every pair that reaches the matcher comes from the direct-Gemini
parse, whose guard drops identity pairs.  (The vision-chain branch never
returns: its success log reads the nonexistent `result.provider_used`
attribute and the resulting `AttributeError` falls through to the direct
path.) -/
theorem matcher_input_no_identity_pairs :
    (∀ (env : EditorEnv) (p : String × String),
        p ∈ extract_text_from_image env → p.1 ≠ p.2 ∧ p.1 ≠ "" ∧ p.2 ≠ "")
    ∧ (∀ (env : EditorEnv) (d : List (String × String)) (p : String × String),
        edit_image_text_sync_translations env = some d → p ∈ d → p.1 ≠ p.2) := by
  constructor
  · intro env p h
    obtain ⟨line, hline⟩ := extract_mem env p h
    exact parseLine_ne line p hline
  · intro env d p hd hp
    rw [edit_image_text_sync_translations] at hd
    cases hx : extract_text_from_image env with
    | nil => rw [hx] at hd; exact absurd hd (by simp)
    | cons q rest =>
      rw [hx] at hd
      simp only at hd
      injection hd with hd
      rw [← hd] at hp
      have hmem := PyDict.mem_ofList _ p hp
      rw [← hx] at hmem
      obtain ⟨line, hline⟩ := extract_mem env p hmem
      exact (parseLine_ne line p hline).1

/-- A vision result whose only extraction is an identity pair. -/
def identityResult : VisionResult := ⟨[⟨"BTC/USDT", "BTC/USDT", 1⟩], "gemini"⟩

/-- Concrete run: the chain returns an identity pair; the direct Gemini
response contains one real translation and one identity line. -/
def envIdentity : EditorEnv :=
  ⟨.result identityResult, .ok "ЛОНГ → LONG\nBTC → BTC"⟩

/-- Witness for C9: the identity line `BTC → BTC` of the direct parse is
dropped and the chain's identity extraction never reaches the output, so
the single delivered pair has different sides. -/
theorem matcher_input_no_identity_pairs_witness :
    extract_text_from_image envIdentity = [("ЛОНГ", "LONG")]
    ∧ ("ЛОНГ", "LONG").1 ≠ ("ЛОНГ", "LONG").2
    ∧ edit_image_text_sync_translations envIdentity = some [("ЛОНГ", "LONG")] := by
  have hx : extract_text_from_image envIdentity = [("ЛОНГ", "LONG")] := by decide
  refine ⟨hx, ?_, by decide⟩
  exact (matcher_input_no_identity_pairs.1 envIdentity ("ЛОНГ", "LONG")
    (by rw [hx]; exact List.mem_singleton.mpr rfl)).1

end ImageEditor

namespace UpdateHandler

/-- The parent-signal record fields read by `handle_signal_update`. -/
structure SignalRecord where
  id : Int
  target_message_id : Option Int
  forward_message_id : Option Int
  source_user_id : Option Int
deriving DecidableEq, Repr

/-- The inbound reply event fields read by `handle_signal_update`. -/
structure UpdateEvent where
  chat_id : Int
  message_id : Int
  sender_id : Option Int
  reply_to_msg_id : Option Int
  text : String
deriving DecidableEq, Repr

/-- The persistence lookups made by `handle_signal_update`:
`db_find_update_by_source_msg` (returns the id of an existing update
record) and `db_find_signal_by_source_msg`. -/
structure Db where
  find_update : Int → Int → Option Int
  find_signal : Int → Int → Option SignalRecord

/-- How `handle_signal_update` disposes of an inbound reply before the
side-effecting part (insert, download, translate, publish). -/
inductive Action where
  | skip_already_processed
  | skip_not_reply
  | skip_unknown_parent
  | skip_parent_not_posted
  | proceed (signal_id : Int) (reply_to_target : Int)
deriving DecidableEq, Repr

/-- The decision prefix of `handle_signal_update`
(`src/handlers/update_handler.py`): idempotency check, reply check
(`if not parent_msg_id`, 0 falsy), parent lookup, parent-posted check
(`if not parent_signal.get('target_message_id')`, 0 falsy) — after which
the function unconditionally creates the update record and proceeds to
publish as a reply to the parent's target message.  The module imports
no FlowTracker function and performs no ownership gating. -/
def handle_signal_update_decision (db : Db) (ev : UpdateEvent) : Action :=
  if (db.find_update ev.chat_id ev.message_id).isSome then .skip_already_processed
  else
    match ev.reply_to_msg_id with
    | none => .skip_not_reply
    | some parentMsgId =>
      if parentMsgId = 0 then .skip_not_reply
      else
        match db.find_signal ev.chat_id parentMsgId with
        | none => .skip_unknown_parent
        | some parent =>
          match parent.target_message_id with
          | none => .skip_parent_not_posted
          | some target =>
            if target = 0 then .skip_parent_not_posted
            else .proceed parent.id target

/-- Database with no prior update record and one posted parent signal
(id 5, posted as target message 999, authored by user 111). -/
def conflictDb : Db :=
  ⟨fun _ _ => none,
   fun chat msgId =>
     if chat = -100500 ∧ msgId = 100 then some ⟨5, some 999, none, some 111⟩
     else none⟩

/-- A reply to that signal from a different identified user 222. -/
def conflictEvent : UpdateEvent := ⟨-100500, 123, some 222, some 100, "стоп в бу"⟩

/-- C1 is a code bug: with signal 5 owned by user 111 through an
unexpired flow, `is_allowed(5, 222)` is false, yet the reply from user
222 is processed: `handle_signal_update` has no
`FlowTracker.is_allowed`-equivalent gating at all (it never imports the
tracker), so it creates the update record and publishes.  The module's
own tests (`tests/test_update_handler.py`) patch
`src.handlers.update_handler.get_flow_owner` and assert that such a
reply is skipped without inserting, which the code under `src/`
contradicts. -/
theorem update_handler_no_ownership_gating :
    (FlowTracker.is_allowed 10 5 222 (FlowTracker.start_flow 0 5 111 FlowTracker.initState)).1
      = false
    ∧ handle_signal_update_decision conflictDb conflictEvent = .proceed 5 999 := by
  constructor
  · have hf := FlowTracker.start_flow_find 0 5 111 FlowTracker.initState
      (by simp [FlowTracker.initState])
      (by norm_num [FlowTracker.initState, FlowTracker.MAX_FLOWS])
    unfold FlowTracker.is_allowed FlowTracker.get_flow_owner
    rw [hf]
    simp only
    rw [if_neg (by norm_num [FlowTracker.FLOW_TTL])]
    rfl
  · decide

end UpdateHandler
